import Mathlib

/-!
Shallow embedding of gemini_analysis.py: the resumable batch-submission
controller (retry loop, completion ledger, result writer, batch driver).

The remote inference client is abstracted as an oracle mapping the global
call counter to an optional response text (none = the call raised an
exception).  The filename filter regular expression is abstracted as a
boolean predicate on filenames.  Printing to stdout is either dropped or,
for the ALREADY WRITTEN skip message, recorded as a trace event.  The
responses file is modelled as its character contents; writing appends and
flushes, both folded into one write event since they are adjacent in the
source and nothing can intervene.
-/

namespace GeminiAnalysis

/-- Lexicographic code-point order on character lists, as Python compares strings. -/
def charsLt : List Char → List Char → Bool
  | [], [] => false
  | [], _ :: _ => true
  | _ :: _, [] => false
  | a :: as, b :: bs =>
      if a.toNat < b.toNat then true
      else if b.toNat < a.toNat then false
      else charsLt as bs

/-- Python string comparison a <= b. -/
def strLe (a b : String) : Bool :=
  !(charsLt b.data a.data)

/-- Ascending stable sort of strings, modelling Python sorted. -/
def sortedStrings (l : List String) : List String :=
  l.insertionSort (fun a b => strLe a b = true)

/-- Whitespace characters stripped by Python str.strip. -/
def pyWS (c : Char) : Bool :=
  c == ' ' || c == '\t' || c == '\n' || c == '\r' || c == '\x0b' || c == '\x0c'

/-- Python str.strip: drop leading and trailing whitespace. -/
def trimChars (l : List Char) : List Char :=
  ((l.dropWhile pyWS).reverse.dropWhile pyWS).reverse

/-- The resume key of one stored line: line.strip() then split on comma, first field,
that is, the stripped line up to the first comma. -/
def lineKey (l : List Char) : List Char :=
  (trimChars l).takeWhile (fun c => !(c == ','))

/-- Python text-file line iteration: pieces between newline characters,
newline terminators dropped, no empty final line after a trailing newline.
First argument is the reversed accumulator of the current line. -/
def pyLinesAux : List Char → List Char → List (List Char)
  | acc, [] => if acc.isEmpty then [] else [acc.reverse]
  | acc, c :: rest =>
      if c = '\n' then acc.reverse :: pyLinesAux [] rest
      else pyLinesAux (c :: acc) rest

def pyLines (contents : List Char) : List (List Char) :=
  pyLinesAux [] contents

/-- Loading the completion ledger from the Result Store contents
(gemini_analysis.py lines 161-167): the set of first comma-delimited
fields of the stripped lines. -/
def loadLedger (contents : List Char) : Finset String :=
  ((pyLines contents).map (fun l => String.mk (lineKey l))).toFinset

/-- One result line as written on success (line 106):
filename, a comma and space, the response text, and a newline. -/
def renderLine (fname text : String) : List Char :=
  (fname ++ ", " ++ text ++ "\n").data

/-- Observable events of a run, in order. -/
inductive Ev where
  | submit (fname : String)
  | write (fname text : String)
  | mark (fname : String)
  | sleep (secs : Nat)
  | skip (fname : String)
deriving DecidableEq

/-- Program state threaded through the run: Result Store contents, the
in-memory completion ledger, the number of remote calls made so far, and
the event trace. -/
structure St where
  store : List Char
  ledger : Finset String
  calls : Nat
  events : List Ev
deriving DecidableEq

/-- The remote client: result of the n-th remote call overall
(none models an exception raised by generate_content). -/
def Oracle : Type := Nat → Option String

/-- The constants of lines 67-68. -/
def maxRetries : Nat := 4

def delaySeconds : Nat := 1

/-- The retry while-loop of lines 90-127.  fuel is a structural bound on
the remaining iterations; the loop is entered with fuel = mr so the guard
retryCount < mr always fails before fuel runs out.  On success: write the
line, flush, add the filename to the ledger, break.  On failure: count the
attempt and, if attempts remain, sleep delay * retryCount seconds. -/
def retryAux (oracle : Oracle) (fname : String) (delay mr : Nat) :
    Nat → Nat → St → St
  | 0, _, st => st
  | fuel + 1, retryCount, st =>
      if retryCount < mr then
        match oracle st.calls with
        | some text =>
            { st with
              calls := st.calls + 1
              store := st.store ++ renderLine fname text
              ledger := insert fname st.ledger
              events := st.events ++ [Ev.submit fname, Ev.write fname text, Ev.mark fname] }
        | none =>
            let rc := retryCount + 1
            let st1 : St :=
              { st with calls := st.calls + 1, events := st.events ++ [Ev.submit fname] }
            if rc < mr then
              retryAux oracle fname delay mr fuel rc
                { st1 with events := st1.events ++ [Ev.sleep (delay * rc)] }
            else st1
      else st

/-- Entry into the retry loop with retry_count = 0. -/
def retryLoop (oracle : Oracle) (fname : String) (delay mr : Nat) (st : St) : St :=
  retryAux oracle fname delay mr mr 0 st

/-- The body of the per-filename loop (lines 76-127): skip silently when
the filter does not match, skip with a message when already written, check
the regular-file test, then run the retry loop. -/
def processItem (filterf : String → Bool) (oracle : Oracle) (isfile : String → Bool)
    (f : String) (st : St) : St :=
  if filterf f then
    if f ∈ st.ledger then { st with events := st.events ++ [Ev.skip f] }
    else if isfile f then retryLoop oracle f delaySeconds maxRetries st
    else st
  else st

/-- The loop of line 72 over an already sorted listing. -/
def processDir (filterf : String → Bool) (oracle : Oracle) (isfile : String → Bool)
    (names : List String) (st : St) : St :=
  names.foldl (fun st f => processItem filterf oracle isfile f st) st

/-- send_filtered_image_prompts_for_directory (lines 65-127): sort the
directory listing, then process each name. -/
def sendFilteredPromptsForDir (filterf : String → Bool) (oracle : Oracle)
    (listing : List String) (isfile : String → Bool) (st : St) : St :=
  processDir filterf oracle isfile (sortedStrings listing) st

/-- A subdirectory of the image root: its name, its regular files, and its
remaining entries that are neither regular files nor directories. -/
structure SubDir where
  name : String
  files : List String
  junk : List String
deriving DecidableEq

/-- The image root directory, one level of subdirectories as supported by
the program. -/
structure RootDir where
  files : List String
  junk : List String
  subdirs : List SubDir
deriving DecidableEq

/-- os.listdir of the root: all entry names, order irrelevant because the
caller sorts. -/
def listdirRoot (r : RootDir) : List String :=
  r.files ++ r.junk ++ r.subdirs.map SubDir.name

/-- os.listdir of a subdirectory. -/
def listdirSub (d : SubDir) : List String :=
  d.files ++ d.junk

/-- One iteration element of os.walk: the root triple, then one triple per
subdirectory (top-down, as os.walk yields them). -/
inductive WalkNode where
  | rootNode
  | subNode (d : SubDir)
deriving DecidableEq

def osWalk (r : RootDir) : List WalkNode :=
  WalkNode.rootNode :: r.subdirs.map WalkNode.subNode

/-- The dirnames component of a walk triple.  Subdirectories contain no
directories in this one-level model, so their dirnames list is empty. -/
def dirnamesOf (r : RootDir) : WalkNode → List String
  | WalkNode.rootNode => r.subdirs.map SubDir.name
  | WalkNode.subNode _ => []

/-- The body of the os.walk loop (lines 176-190).  When the current triple
has no dirnames the code scans args.image_directory, the root, regardless
of which directory the triple describes; otherwise it scans each
subdirectory of the root named in sorted(dirnames), resolving the joined
path against the root. -/
def processWalkNode (filterf : String → Bool) (oracle : Oracle) (r : RootDir)
    (st : St) (n : WalkNode) : St :=
  if (dirnamesOf r n).isEmpty then
    sendFilteredPromptsForDir filterf oracle (listdirRoot r)
      (fun f => r.files.contains f) st
  else
    (sortedStrings (dirnamesOf r n)).foldl
      (fun st nm =>
        match r.subdirs.find? (fun d => d.name == nm) with
        | some d =>
            sendFilteredPromptsForDir filterf oracle (listdirSub d)
              (fun f => d.files.contains f) st
        | none => st) st

/-- main (lines 131-190) after configuration: load the ledger once from
the existing store contents, open the store for append, then run the
os.walk loop. -/
def runMain (filterf : String → Bool) (oracle : Oracle) (r : RootDir)
    (initialStore : List Char) : St :=
  (osWalk r).foldl (processWalkNode filterf oracle r)
    { store := initialStore, ledger := loadLedger initialStore, calls := 0, events := [] }

/-- main including the fallible configuration phase: reading the prompt
file (line 156) and opening or reading the Result Store (lines 163-174)
raise uncaught exceptions when they fail, aborting the run before any
submissions.  promptOk and storeOk say whether those opens succeed. -/
def runProgram (promptOk storeOk : Bool) (filterf : String → Bool) (oracle : Oracle)
    (r : RootDir) (initialStore : List Char) : Except Unit St :=
  if promptOk then
    if storeOk then Except.ok (runMain filterf oracle r initialStore)
    else Except.error ()
  else Except.error ()

/-- Filenames of submit events, in order. -/
def subsOf (evs : List Ev) : List String :=
  evs.filterMap (fun e => match e with | Ev.submit f => some f | _ => none)

/-- Filename and text of write events, in order. -/
def wpairsOf (evs : List Ev) : List (String × String) :=
  evs.filterMap (fun e => match e with | Ev.write f t => some (f, t) | _ => none)

/-- Filenames of write events, in order. -/
def wfilesOf (evs : List Ev) : List String :=
  evs.filterMap (fun e => match e with | Ev.write f _ => some f | _ => none)

/-- Durations of sleep events, in order. -/
def sleepsOf (evs : List Ev) : List Nat :=
  evs.filterMap (fun e => match e with | Ev.sleep s => some s | _ => none)

/-- Store contents appended by the write events of a trace. -/
def storeOf (evs : List Ev) : List Char :=
  ((wpairsOf evs).map (fun p => renderLine p.1 p.2)).flatten

/-- Checks the write-before-mark ordering along a trace: w accumulates the
filenames written so far; a mark is legal only for an already written
filename. -/
def okAfter (w : List String) : List Ev → Bool
  | [] => true
  | Ev.write f _ :: rest => okAfter (f :: w) rest
  | Ev.mark f :: rest => w.contains f && okAfter w rest
  | _ :: rest => okAfter w rest

/-- The written-filename accumulator after a trace, for composing okAfter. -/
def pushW (w : List String) : List Ev → List String
  | [] => w
  | Ev.write f _ :: rest => pushW (f :: w) rest
  | _ :: rest => pushW w rest

/-- A filename whose stored line round-trips through the ledger loader:
no comma, no newline, and no leading whitespace character. -/
def cleanName (f : String) : Bool :=
  (f.data.all (fun c => !(c == ',') && !(c == '\n'))) &&
    (match f.data with
     | [] => true
     | c :: _ => !pyWS c)

/-- Every filename in the tree that the filter accepts is clean. -/
def cleanTree (filterf : String → Bool) (r : RootDir) : Prop :=
  (∀ f ∈ listdirRoot r, filterf f = true → cleanName f = true) ∧
    ∀ d ∈ r.subdirs, ∀ f ∈ listdirSub d, filterf f = true → cleanName f = true

/-- The store contents are empty or end with a newline, as every store
produced by the writer does. -/
def nlTerminated (s : List Char) : Prop :=
  s = [] ∨ s.getLast? = some '\n'

/-- A name the Work Enumerator accepts somewhere in the tree: it passes
the filter and is a regular file of the root or of a subdirectory. -/
def acceptedName (filterf : String → Bool) (r : RootDir) (f : String) : Prop :=
  filterf f = true ∧
    ((f ∈ listdirRoot r ∧ r.files.contains f = true) ∨
      ∃ d ∈ r.subdirs, f ∈ listdirSub d ∧ d.files.contains f = true)

/-- Every filter-accepted regular file of the tree lies in the set L. -/
def coveredBy (filterf : String → Bool) (r : RootDir) (L : Finset String) : Prop :=
  ∀ f, acceptedName filterf r f → f ∈ L

/-- The relation between a state and any state the batch code can reach
from it: the trace is extended by events whose submits all concern
Q-acceptable filenames that were not yet in the ledger, the store grows
exactly by the rendered write events, the ledger grows exactly by the
written filenames, calls count the submits, writes only follow submits,
and every mark follows a write of the same filename. -/
def Runs (Q : String → Prop) (a b : St) : Prop :=
  ∃ Δ, b.events = a.events ++ Δ ∧
    b.store = a.store ++ storeOf Δ ∧
    b.ledger = a.ledger ∪ (wfilesOf Δ).toFinset ∧
    b.calls = a.calls + (subsOf Δ).length ∧
    (∀ f ∈ subsOf Δ, Q f ∧ f ∉ a.ledger) ∧
    (∀ f ∈ wfilesOf Δ, f ∈ subsOf Δ) ∧
    (∀ w, okAfter w Δ = true)

/-- The concrete tree of the root-rescan counterexample: one matching
image directly in the root next to one subdirectory holding one image. -/
def bugTree : RootDir :=
  { files := ["r1.jpg"], junk := [], subdirs := [{ name := "A", files := ["a1.jpg"], junk := [] }] }

/-- A filter accepting names that contain a dot, as image filenames do. -/
def dotFilter : String → Bool := fun f => f.data.contains '.'

/-- A remote client that always answers ok. -/
def okOracle : Oracle := fun _ => some "ok"

/-! Basic trace lemmas. -/

theorem subsOf_append (a b : List Ev) : subsOf (a ++ b) = subsOf a ++ subsOf b :=
  List.filterMap_append a b _

theorem wfilesOf_append (a b : List Ev) : wfilesOf (a ++ b) = wfilesOf a ++ wfilesOf b :=
  List.filterMap_append a b _

theorem wpairsOf_append (a b : List Ev) : wpairsOf (a ++ b) = wpairsOf a ++ wpairsOf b :=
  List.filterMap_append a b _

theorem sleepsOf_append (a b : List Ev) : sleepsOf (a ++ b) = sleepsOf a ++ sleepsOf b :=
  List.filterMap_append a b _

theorem storeOf_append (a b : List Ev) : storeOf (a ++ b) = storeOf a ++ storeOf b := by
  simp [storeOf, wpairsOf_append]

theorem wfilesOf_eq_map_fst (evs : List Ev) : wfilesOf evs = (wpairsOf evs).map Prod.fst := by
  induction evs with
  | nil => rfl
  | cons e rest ih => cases e <;> simp [wfilesOf, wpairsOf, List.filterMap_cons] <;>
      simpa [wfilesOf, wpairsOf] using ih

theorem okAfter_append (a b : List Ev) :
    ∀ w, okAfter w (a ++ b) = (okAfter w a && okAfter (pushW w a) b) := by
  induction a with
  | nil => intro w; simp [okAfter, pushW]
  | cons e rest ih =>
      intro w
      cases e <;> simp [okAfter, pushW, ih, Bool.and_assoc]

theorem mem_sortedStrings {a : String} {l : List String} :
    a ∈ sortedStrings l ↔ a ∈ l :=
  List.mem_insertionSort _

/-! Composition of the Runs relation. -/

theorem runs_refl (Q : String → Prop) (st : St) : Runs Q st st := by
  refine ⟨[], by simp, by simp [storeOf, wpairsOf], by simp [wfilesOf], by simp [subsOf], ?_, ?_, ?_⟩
  · simp [subsOf]
  · simp [wfilesOf]
  · intro w; rfl

theorem runs_trans {Q : String → Prop} {a b c : St}
    (h1 : Runs Q a b) (h2 : Runs Q b c) : Runs Q a c := by
  obtain ⟨d1, he1, hs1, hl1, hc1, hq1, hw1, ho1⟩ := h1
  obtain ⟨d2, he2, hs2, hl2, hc2, hq2, hw2, ho2⟩ := h2
  refine ⟨d1 ++ d2, ?_, ?_, ?_, ?_, ?_, ?_, ?_⟩
  · rw [he2, he1, List.append_assoc]
  · rw [hs2, hs1, storeOf_append, List.append_assoc]
  · rw [hl2, hl1, wfilesOf_append]
    simp [List.toFinset_append, Finset.union_assoc]
  · rw [hc2, hc1, subsOf_append]
    simp [Nat.add_assoc]
  · intro f hf
    rw [subsOf_append] at hf
    rcases List.mem_append.mp hf with h | h
    · exact hq1 f h
    · refine ⟨(hq2 f h).1, fun hmem => (hq2 f h).2 ?_⟩
      rw [hl1]
      exact Finset.mem_union_left _ hmem
  · intro f hf
    rw [wfilesOf_append] at hf
    rw [subsOf_append]
    rcases List.mem_append.mp hf with h | h
    · exact List.mem_append_left _ (hw1 f h)
    · exact List.mem_append_right _ (hw2 f h)
  · intro w
    rw [okAfter_append, ho1 w, ho2 (pushW w d1)]
    rfl

/-! Runs holds for each basic step the code performs. -/

theorem runs_skip (Q : String → Prop) (st : St) (f : String) :
    Runs Q st { st with events := st.events ++ [Ev.skip f] } := by
  refine ⟨[Ev.skip f], rfl, ?_, ?_, ?_, ?_, ?_, ?_⟩
  · simp [storeOf, wpairsOf]
  · simp [wfilesOf]
  · simp [subsOf]
  · simp [subsOf]
  · simp [wfilesOf]
  · intro w; rfl

theorem runs_submit_fail {Q : String → Prop} {st : St} {f : String}
    (hQ : Q f) (hf : f ∉ st.ledger) :
    Runs Q st { st with calls := st.calls + 1, events := st.events ++ [Ev.submit f] } := by
  refine ⟨[Ev.submit f], rfl, ?_, ?_, ?_, ?_, ?_, ?_⟩
  · simp [storeOf, wpairsOf]
  · simp [wfilesOf]
  · simp [subsOf]
  · simpa [subsOf] using ⟨hQ, hf⟩
  · simp [wfilesOf]
  · intro w; rfl

theorem runs_submit_sleep {Q : String → Prop} {st : St} {f : String}
    (hQ : Q f) (hf : f ∉ st.ledger) (n : Nat) :
    Runs Q st
      { st with calls := st.calls + 1,
                events := st.events ++ [Ev.submit f] ++ [Ev.sleep n] } := by
  refine ⟨[Ev.submit f] ++ [Ev.sleep n], by simp, ?_, ?_, ?_, ?_, ?_, ?_⟩
  · simp [storeOf, wpairsOf]
  · simp [wfilesOf]
  · simp [subsOf]
  · simpa [subsOf] using ⟨hQ, hf⟩
  · simp [wfilesOf]
  · intro w; rfl

theorem runs_success {Q : String → Prop} {st : St} {f : String}
    (hQ : Q f) (hf : f ∉ st.ledger) (t : String) :
    Runs Q st
      { st with calls := st.calls + 1,
                store := st.store ++ renderLine f t,
                ledger := insert f st.ledger,
                events := st.events ++ [Ev.submit f, Ev.write f t, Ev.mark f] } := by
  refine ⟨[Ev.submit f, Ev.write f t, Ev.mark f], rfl, ?_, ?_, ?_, ?_, ?_, ?_⟩
  · simp [storeOf, wpairsOf]
  · simp [wfilesOf, Finset.insert_eq, Finset.union_comm]
  · simp [subsOf]
  · simpa [subsOf] using ⟨hQ, hf⟩
  · simp [wfilesOf, subsOf]
  · intro w; simp [okAfter]

/-! Runs holds for every function of the batch driver. -/

theorem runs_retryAux {Q : String → Prop} (oracle : Oracle) (fname : String)
    (delay mr : Nat) (hQ : Q fname) :
    ∀ fuel retryCount st, fname ∉ st.ledger →
      Runs Q st (retryAux oracle fname delay mr fuel retryCount st) := by
  intro fuel
  induction fuel with
  | zero => intro rc st _; exact runs_refl Q st
  | succ fuel ih =>
      intro rc st h
      simp only [retryAux]
      split
      · cases hor : oracle st.calls with
        | some t => simp only [hor]; exact runs_success hQ h t
        | none =>
            simp only [hor]
            split
            · exact runs_trans (runs_submit_sleep hQ h _) (ih (rc + 1) _ (by simpa using h))
            · exact runs_submit_fail hQ h
      · exact runs_refl Q st

theorem runs_processItem (Q : String → Prop) (filterf : String → Bool) (oracle : Oracle)
    (isfile : String → Bool) (f : String)
    (hQ : filterf f = true → isfile f = true → Q f) (st : St) :
    Runs Q st (processItem filterf oracle isfile f st) := by
  unfold processItem
  split
  · split
    · exact runs_skip Q st f
    · split
      · exact runs_retryAux oracle f delaySeconds maxRetries
          (hQ (by assumption) (by assumption)) maxRetries 0 st (by assumption)
      · exact runs_refl Q st
  · exact runs_refl Q st

theorem runs_foldl {α : Type} (Q : String → Prop) (g : St → α → St) (xs : List α)
    (hg : ∀ st x, x ∈ xs → Runs Q st (g st x)) :
    ∀ st, Runs Q st (xs.foldl g st) := by
  induction xs with
  | nil => intro st; exact runs_refl Q st
  | cons x rest ih =>
      intro st
      exact runs_trans (hg st x (List.mem_cons_self x rest))
        (ih (fun st y hy => hg st y (List.mem_cons_of_mem x hy)) (g st x))

theorem runs_processDir (Q : String → Prop) (filterf : String → Bool) (oracle : Oracle)
    (isfile : String → Bool) (names : List String)
    (h : ∀ f ∈ names, filterf f = true → isfile f = true → Q f) (st : St) :
    Runs Q st (processDir filterf oracle isfile names st) :=
  runs_foldl Q _ names
    (fun st f hf => runs_processItem Q filterf oracle isfile f (h f hf) st) st

theorem runs_sendFiltered (Q : String → Prop) (filterf : String → Bool) (oracle : Oracle)
    (listing : List String) (isfile : String → Bool)
    (h : ∀ f ∈ listing, filterf f = true → isfile f = true → Q f) (st : St) :
    Runs Q st (sendFilteredPromptsForDir filterf oracle listing isfile st) :=
  runs_processDir Q filterf oracle isfile (sortedStrings listing)
    (fun f hf => h f (mem_sortedStrings.mp hf)) st

theorem runs_processWalkNode (filterf : String → Bool) (oracle : Oracle) (r : RootDir)
    (st : St) (n : WalkNode) :
    Runs (acceptedName filterf r) st (processWalkNode filterf oracle r st n) := by
  unfold processWalkNode
  split
  · exact runs_sendFiltered _ filterf oracle (listdirRoot r) _
      (fun f hf h1 h2 => ⟨h1, Or.inl ⟨hf, h2⟩⟩) st
  · refine runs_foldl _ _ _ (fun st nm _ => ?_) st
    cases hfind : r.subdirs.find? (fun d => d.name == nm) with
    | some d =>
        simp only [hfind]
        exact runs_sendFiltered _ filterf oracle (listdirSub d) _
          (fun f hf h1 h2 =>
            ⟨h1, Or.inr ⟨d, List.mem_of_find?_eq_some hfind, hf, h2⟩⟩) st
    | none => simp only [hfind]; exact runs_refl _ st

theorem runs_runMain (filterf : String → Bool) (oracle : Oracle) (r : RootDir)
    (s : List Char) :
    Runs (acceptedName filterf r)
      { store := s, ledger := loadLedger s, calls := 0, events := [] }
      (runMain filterf oracle r s) :=
  runs_foldl _ _ (osWalk r)
    (fun st n _ => runs_processWalkNode filterf oracle r st n) _

/-! Computational characterizations of the retry loop. -/

theorem retryLoop_success_eq (oracle : Oracle) (fname : String) (st : St) (t : String)
    (h : oracle st.calls = some t) :
    retryLoop oracle fname delaySeconds maxRetries st =
      { st with calls := st.calls + 1,
                store := st.store ++ renderLine fname t,
                ledger := insert fname st.ledger,
                events := st.events ++ [Ev.submit fname, Ev.write fname t, Ev.mark fname] } := by
  simp [retryLoop, maxRetries, delaySeconds, retryAux, h]

theorem retryLoop_fail_eq (oracle : Oracle) (fname : String) (st : St)
    (h : ∀ i, oracle i = none) :
    retryLoop oracle fname delaySeconds maxRetries st =
      { st with calls := st.calls + 4,
                events := st.events ++
                  [Ev.submit fname, Ev.sleep 1, Ev.submit fname, Ev.sleep 2,
                   Ev.submit fname, Ev.sleep 3, Ev.submit fname] } := by
  simp [retryLoop, maxRetries, delaySeconds, retryAux, h]

/-! Properties of the stored-line format and the ledger loader. -/

theorem cleanName_not_comma {f : String} (h : cleanName f = true) :
    ∀ c ∈ f.data, (c == ',') = false := by
  intro c hc
  have := (Bool.and_eq_true _ _).mp h
  have h1 := (List.all_eq_true.mp this.1) c hc
  have := (Bool.and_eq_true _ _).mp h1
  simpa using this.1

theorem cleanName_not_nl {f : String} (h : cleanName f = true) :
    ∀ c ∈ f.data, ¬ c = '\n' := by
  intro c hc
  have := (Bool.and_eq_true _ _).mp h
  have h1 := (List.all_eq_true.mp this.1) c hc
  have := (Bool.and_eq_true _ _).mp h1
  simpa using this.2

theorem cleanName_head {f : String} (h : cleanName f = true) :
    ∀ c l, f.data = c :: l → pyWS c = false := by
  intro c l hcl
  have := (Bool.and_eq_true _ _).mp h
  have h2 := this.2
  rw [hcl] at h2
  simpa using h2

theorem pyLinesAux_cons_nl (acc rest : List Char) :
    pyLinesAux acc ('\n' :: rest) = acc.reverse :: pyLinesAux [] rest := by
  rw [pyLinesAux]
  simp

theorem pyLinesAux_cons (acc : List Char) (c : Char) (rest : List Char) (h : ¬ c = '\n') :
    pyLinesAux acc (c :: rest) = pyLinesAux (c :: acc) rest := by
  rw [pyLinesAux]
  simp [h]

theorem pyLinesAux_append (b : List Char) :
    ∀ (a : List Char) acc, a.getLast? = some '\n' →
      pyLinesAux acc (a ++ b) = pyLinesAux acc a ++ pyLinesAux [] b := by
  intro a
  induction a with
  | nil => intro acc h; simp at h
  | cons c rest ih =>
      intro acc h
      cases rest with
      | nil =>
          have hc : c = '\n' := by simpa using h
          subst hc
          rw [List.cons_append, pyLinesAux_cons_nl, pyLinesAux_cons_nl]
          simp [pyLinesAux]
      | cons d rest2 =>
          have h2 : (d :: rest2).getLast? = some '\n' := h
          by_cases hc : c = '\n'
          · subst hc
            rw [List.cons_append, pyLinesAux_cons_nl, pyLinesAux_cons_nl, ih _ h2]
            simp
          · rw [List.cons_append, pyLinesAux_cons _ _ _ hc, pyLinesAux_cons _ _ _ hc]
            exact ih _ h2

theorem pyLinesAux_shift (rest : List Char) :
    ∀ (l : List Char) acc, (∀ c ∈ l, ¬ c = '\n') →
      pyLinesAux acc (l ++ rest) = pyLinesAux (l.reverse ++ acc) rest := by
  intro l
  induction l with
  | nil => intro acc _; simp
  | cons c r ih =>
      intro acc h
      have hc : ¬ c = '\n' := h c (List.mem_cons_self c r)
      rw [List.cons_append, pyLinesAux_cons _ _ _ hc,
        ih (c :: acc) (fun x hx => h x (List.mem_cons_of_mem c hx))]
      simp

theorem pyLinesAux_firstline :
    ∀ (tl : List Char) acc, ∃ ls,
      pyLinesAux acc (tl ++ ['\n']) =
        (acc.reverse ++ tl.takeWhile (fun c => !(c == '\n'))) :: ls := by
  intro tl
  induction tl with
  | nil => intro acc; exact ⟨[], by simp [pyLinesAux_cons_nl, pyLinesAux]⟩
  | cons c r ih =>
      intro acc
      by_cases hc : c = '\n'
      · subst hc
        refine ⟨pyLinesAux [] (r ++ ['\n']), ?_⟩
        rw [List.cons_append, pyLinesAux_cons_nl]
        simp [List.takeWhile_cons]
      · obtain ⟨ls, hls⟩ := ih (c :: acc)
        refine ⟨ls, ?_⟩
        rw [List.cons_append, pyLinesAux_cons _ _ _ hc, hls]
        simp [List.takeWhile_cons, hc]

theorem takeWhile_append_of_all {p : Char → Bool} :
    ∀ (l : List Char) (x : Char) (u : List Char),
      (∀ c ∈ l, p c = true) → p x = false → (l ++ x :: u).takeWhile p = l := by
  intro l
  induction l with
  | nil => intro x u _ hx; simp [List.takeWhile_cons, hx]
  | cons c r ih =>
      intro x u h hx
      simp only [List.cons_append, List.takeWhile_cons, h c (List.mem_cons_self c r)]
      simp [ih x u (fun a ha => h a (List.mem_cons_of_mem c ha)) hx]

theorem lineKey_clean (f : String) (u : List Char) (hf : cleanName f = true) :
    lineKey (f.data ++ ',' :: u) = f.data := by
  have hall : ∀ c ∈ f.data, (fun c => !(c == ',')) c = true := by
    intro c hc
    simp [cleanName_not_comma hf c hc]
  have hcomma : (fun c => !(c == ',')) ',' = false := by simp
  have hws : pyWS ',' = false := by decide
  have hleft : (f.data ++ ',' :: u).dropWhile pyWS = f.data ++ ',' :: u := by
    cases hd : f.data with
    | nil => simp [List.dropWhile_cons, hws]
    | cons c l =>
        have hc := cleanName_head hf c l hd
        rw [List.cons_append, List.dropWhile_cons]
        simp [hc]
  have hrev : (f.data ++ ',' :: u).reverse = u.reverse ++ ',' :: f.data.reverse := by
    simp
  unfold lineKey trimChars
  rw [hleft, hrev, List.dropWhile_append]
  split
  · rw [List.dropWhile_cons]
    simp only [hws, Bool.false_eq_true, if_false, List.reverse_cons, List.reverse_reverse]
    exact takeWhile_append_of_all f.data ',' [] hall hcomma
  · simp only [List.reverse_append, List.reverse_cons, List.reverse_reverse]
    rw [List.append_assoc]
    exact takeWhile_append_of_all f.data ',' _ hall hcomma

theorem renderLine_eq (f t : String) :
    renderLine f t = f.data ++ ',' :: ' ' :: (t.data ++ ['\n']) := by
  simp [renderLine, String.data_append]

theorem nlTerminated_append (s : List Char) (f t : String) :
    nlTerminated (s ++ renderLine f t) := by
  right
  rw [renderLine_eq]
  have : s ++ (f.data ++ ',' :: ' ' :: (t.data ++ ['\n'])) =
      (s ++ f.data ++ ',' :: ' ' :: t.data) ++ ['\n'] := by simp
  rw [this, List.getLast?_concat]

theorem pyLines_append (s chunk : List Char) (h : nlTerminated s) :
    pyLines (s ++ chunk) = pyLines s ++ pyLines chunk := by
  rcases h with h | h
  · subst h; simp [pyLines, pyLinesAux]
  · exact pyLinesAux_append chunk s [] h

theorem pyLines_renderLine (f t : String) (hf : cleanName f = true) :
    ∃ ls, pyLines (renderLine f t) =
      (f.data ++ ',' :: ' ' :: t.data.takeWhile (fun c => !(c == '\n'))) :: ls := by
  rw [renderLine_eq]
  have e : f.data ++ ',' :: ' ' :: (t.data ++ ['\n']) =
      (f.data ++ [',', ' ']) ++ (t.data ++ ['\n']) := by simp
  rw [e]
  unfold pyLines
  rw [pyLinesAux_shift _ _ _ ?hnl]
  case hnl =>
    intro c hc
    rcases List.mem_append.mp hc with h | h
    · exact cleanName_not_nl hf c h
    · intro he; subst he; simp at h
  obtain ⟨ls, hls⟩ := pyLinesAux_firstline t.data ((f.data ++ [',', ' ']).reverse)
  refine ⟨ls, ?_⟩
  rw [List.append_nil, hls, List.reverse_reverse]
  simp

theorem pyLines_renderLine_single (f t : String) (hf : cleanName f = true)
    (ht : ∀ c ∈ t.data, ¬ c = '\n') :
    pyLines (renderLine f t) = [f.data ++ ',' :: ' ' :: t.data] := by
  rw [renderLine_eq]
  have e : f.data ++ ',' :: ' ' :: (t.data ++ ['\n']) =
      (f.data ++ ',' :: ' ' :: t.data) ++ ['\n'] := by simp
  rw [e]
  unfold pyLines
  rw [pyLinesAux_shift _ _ _ ?hnl2]
  case hnl2 =>
    intro c hc he
    subst he
    rcases List.mem_append.mp hc with h | h
    · exact cleanName_not_nl hf '\n' h rfl
    · rcases List.mem_cons.mp h with h | h
      · simp at h
      · rcases List.mem_cons.mp h with h | h
        · simp at h
        · exact ht '\n' h rfl
  rw [List.append_nil, pyLinesAux_cons_nl, List.reverse_reverse]
  simp [pyLinesAux]

theorem mem_loadLedger_of_line {s : List Char} {l : List Char} (hl : l ∈ pyLines s) :
    String.mk (lineKey l) ∈ loadLedger s := by
  unfold loadLedger
  rw [List.mem_toFinset]
  exact List.mem_map_of_mem _ hl

theorem loadLedger_append_subset (s : List Char) (f t : String) (hs : nlTerminated s) :
    loadLedger s ⊆ loadLedger (s ++ renderLine f t) := by
  intro g hg
  unfold loadLedger at hg ⊢
  rw [List.mem_toFinset] at hg ⊢
  rw [pyLines_append s _ hs, List.map_append]
  exact List.mem_append_left _ hg

theorem mem_loadLedger_append (s : List Char) (f t : String)
    (hf : cleanName f = true) (hs : nlTerminated s) :
    f ∈ loadLedger (s ++ renderLine f t) := by
  obtain ⟨ls, hls⟩ := pyLines_renderLine f t hf
  have hline : (f.data ++ ',' :: ' ' :: t.data.takeWhile (fun c => !(c == '\n'))) ∈
      pyLines (s ++ renderLine f t) := by
    rw [pyLines_append s _ hs, hls]
    exact List.mem_append_right _ (List.mem_cons_self _ _)
  have hkey := mem_loadLedger_of_line hline
  rwa [lineKey_clean f _ hf] at hkey

theorem loadLedger_append_eq (s : List Char) (f t : String)
    (hf : cleanName f = true) (ht : ∀ c ∈ t.data, ¬ c = '\n') (hs : nlTerminated s) :
    loadLedger (s ++ renderLine f t) = insert f (loadLedger s) := by
  unfold loadLedger
  rw [pyLines_append s _ hs, pyLines_renderLine_single f t hf ht, List.map_append,
    List.toFinset_append, List.map_cons, List.map_nil]
  rw [lineKey_clean f _ hf]
  have hmk : ({ data := f.data } : String) = f := rfl
  rw [hmk]
  ext g
  simp [or_comm]

/-- Appending a sequence of cleanly named records preserves the
newline-termination of the store, keeps every old key, and makes every
written filename a key. -/
theorem store_growth (ps : List (String × String)) :
    ∀ s : List Char, nlTerminated s → (∀ p ∈ ps, cleanName p.1 = true) →
      (loadLedger s ⊆ loadLedger (s ++ (ps.map (fun p => renderLine p.1 p.2)).flatten)) ∧
        (∀ p ∈ ps, p.1 ∈ loadLedger (s ++ (ps.map (fun p => renderLine p.1 p.2)).flatten)) ∧
        nlTerminated (s ++ (ps.map (fun p => renderLine p.1 p.2)).flatten) := by
  induction ps with
  | nil =>
      intro s hs _
      refine ⟨by simp, by simp, ?_⟩
      simpa using hs
  | cons p ps ih =>
      intro s hs hc
      have hs1 : nlTerminated (s ++ renderLine p.1 p.2) := nlTerminated_append s p.1 p.2
      have hrest := ih (s ++ renderLine p.1 p.2) hs1
        (fun q hq => hc q (List.mem_cons_of_mem p hq))
      have hassoc : s ++ ((p :: ps).map (fun q => renderLine q.1 q.2)).flatten =
          (s ++ renderLine p.1 p.2) ++ (ps.map (fun q => renderLine q.1 q.2)).flatten := by
        simp
      rw [hassoc]
      refine ⟨?_, ?_, hrest.2.2⟩
      · exact fun g hg => hrest.1
          (loadLedger_append_subset s p.1 p.2 hs hg)
      · intro q hq
        rcases List.mem_cons.mp hq with h | h
        · subst h
          exact hrest.1 (mem_loadLedger_append s q.1 q.2 (hc q (List.mem_cons_self q ps)) hs)
        · exact hrest.2.1 q h

/-- Along any Runs step with clean submitted names, the ledger stays a
subset of the keys recoverable from the store, and the store stays
newline-terminated. -/
theorem inv_of_runs {Q : String → Prop} {a b : St} (h : Runs Q a b)
    (hclean : ∀ f, Q f → cleanName f = true)
    (hl : a.ledger ⊆ loadLedger a.store) (hnl : nlTerminated a.store) :
    b.ledger ⊆ loadLedger b.store ∧ nlTerminated b.store := by
  obtain ⟨d, _, hs, hld, _, hq, hw, _⟩ := h
  have hcp : ∀ p ∈ wpairsOf d, cleanName p.1 = true := by
    intro p hp
    have hfst : p.1 ∈ wfilesOf d := by
      rw [wfilesOf_eq_map_fst]
      exact List.mem_map_of_mem _ hp
    exact hclean p.1 (hq p.1 (hw p.1 hfst)).1
  have hg := store_growth (wpairsOf d) a.store hnl hcp
  rw [hs, hld]
  refine ⟨?_, by simpa [storeOf] using hg.2.2⟩
  intro g hg2
  rcases Finset.mem_union.mp hg2 with hmem | hmem
  · exact by simpa [storeOf] using hg.1 (hl hmem)
  · rw [List.mem_toFinset, wfilesOf_eq_map_fst] at hmem
    obtain ⟨p, hp, hpe⟩ := List.mem_map.mp hmem
    subst hpe
    exact by simpa [storeOf] using hg.2.1 p hp

/-! Ledger coverage under an always-successful client. -/

theorem ledger_mono_of_runs {Q : String → Prop} {a b : St} (h : Runs Q a b) :
    a.ledger ⊆ b.ledger := by
  obtain ⟨d, _, _, hld, _⟩ := h
  rw [hld]
  exact Finset.subset_union_left

theorem processItem_ledger_mono (filterf : String → Bool) (oracle : Oracle)
    (isfile : String → Bool) (x : String) (st : St) :
    st.ledger ⊆ (processItem filterf oracle isfile x st).ledger :=
  ledger_mono_of_runs
    (runs_processItem (fun _ => True) filterf oracle isfile x (fun _ _ => trivial) st)

theorem processWalkNode_ledger_mono (filterf : String → Bool) (oracle : Oracle)
    (r : RootDir) (st : St) (n : WalkNode) :
    st.ledger ⊆ (processWalkNode filterf oracle r st n).ledger :=
  ledger_mono_of_runs (runs_processWalkNode filterf oracle r st n)

theorem foldl_pres {α : Type} (g : St → α → St) (P : St → Prop)
    (hg : ∀ st x, P st → P (g st x)) :
    ∀ (xs : List α) (st : St), P st → P (List.foldl g st xs) := by
  intro xs
  induction xs with
  | nil => intro st h; exact h
  | cons x rest ih => intro st h; exact ih (g st x) (hg st x h)

theorem foldl_covers {α : Type} (g : St → α → St) (P : St → Prop)
    (hmono : ∀ st x, P st → P (g st x)) (x₀ : α) (hset : ∀ st, P (g st x₀)) :
    ∀ (xs : List α), x₀ ∈ xs → ∀ st : St, P (List.foldl g st xs) := by
  intro xs
  induction xs with
  | nil => intro h; cases h
  | cons y rest ih =>
      intro hx st
      rcases List.mem_cons.mp hx with he | hm
      · subst he
        exact foldl_pres g P hmono rest _ (hset st)
      · exact ih hm (g st y)

theorem find?_name_eq :
    ∀ (l : List SubDir) (d : SubDir), (l.map SubDir.name).Nodup → d ∈ l →
      l.find? (fun x => x.name == d.name) = some d := by
  intro l
  induction l with
  | nil => intro d _ h; cases h
  | cons x xs ih =>
      intro d hnd hd
      rcases List.mem_cons.mp hd with he | hm
      · subst he
        simp [List.find?_cons]
      · have hnd2 : x.name ∉ xs.map SubDir.name ∧ (xs.map SubDir.name).Nodup := by
          rw [List.map_cons, List.nodup_cons] at hnd
          exact hnd
        have hne : (x.name == d.name) = false := by
          rw [beq_eq_false_iff_ne]
          intro he
          exact hnd2.1 (he ▸ List.mem_map_of_mem SubDir.name hm)
        rw [List.find?_cons, hne]
        exact ih d hnd2.2 hm

theorem processItem_covers (filterf : String → Bool) (oracle : Oracle)
    (isfile : String → Bool) (f : String) (st : St)
    (ho : ∀ i, (oracle i).isSome = true) (h1 : filterf f = true) (h2 : isfile f = true) :
    f ∈ (processItem filterf oracle isfile f st).ledger := by
  unfold processItem
  rw [if_pos h1]
  by_cases hmem : f ∈ st.ledger
  · rw [if_pos hmem]
    simpa using hmem
  · rw [if_neg hmem, if_pos h2]
    obtain ⟨t, ht⟩ := Option.isSome_iff_exists.mp (ho st.calls)
    rw [retryLoop_success_eq oracle f st t ht]
    exact Finset.mem_insert_self f st.ledger

theorem sendFiltered_covers (filterf : String → Bool) (oracle : Oracle)
    (listing : List String) (isfile : String → Bool) (f : String) (st : St)
    (ho : ∀ i, (oracle i).isSome = true) (hmem : f ∈ listing)
    (h1 : filterf f = true) (h2 : isfile f = true) :
    f ∈ (sendFilteredPromptsForDir filterf oracle listing isfile st).ledger := by
  unfold sendFilteredPromptsForDir processDir
  exact foldl_covers _ (fun st => f ∈ st.ledger)
    (fun st x h => processItem_ledger_mono filterf oracle isfile x st h)
    f (fun st => processItem_covers filterf oracle isfile f st ho h1 h2)
    (sortedStrings listing) (mem_sortedStrings.mpr hmem) st

theorem runMain_covers (filterf : String → Bool) (oracle : Oracle) (r : RootDir)
    (s : List Char) (ho : ∀ i, (oracle i).isSome = true)
    (hnd : (r.subdirs.map SubDir.name).Nodup) :
    coveredBy filterf r ((runMain filterf oracle r s).ledger) := by
  intro f hacc
  obtain ⟨h1, hloc⟩ := hacc
  unfold runMain osWalk
  rcases hloc with ⟨hmem, hreg⟩ | ⟨d, hd, hmem, hreg⟩
  · -- f is a regular file of the root: some walk node scans the root.
    cases hsub : r.subdirs with
    | nil =>
        refine foldl_covers _ (fun st => f ∈ st.ledger)
          (fun st n h => processWalkNode_ledger_mono filterf oracle r st n h)
          WalkNode.rootNode (fun st => ?_) _ (by simp) _
        unfold processWalkNode
        rw [if_pos (by simp [dirnamesOf, hsub])]
        exact sendFiltered_covers filterf oracle _ _ f st ho hmem h1 hreg
    | cons d ds =>
        refine foldl_covers _ (fun st => f ∈ st.ledger)
          (fun st n h => processWalkNode_ledger_mono filterf oracle r st n h)
          (WalkNode.subNode d) (fun st => ?_) _ ?_ _
        · unfold processWalkNode
          rw [if_pos (by simp [dirnamesOf])]
          exact sendFiltered_covers filterf oracle _ _ f st ho hmem h1 hreg
        · refine List.mem_cons_of_mem _ ?_
          exact List.mem_map_of_mem WalkNode.subNode (List.mem_cons_self d ds)
  · -- f is a regular file of subdirectory d: the root walk node scans d.
    refine foldl_covers _ (fun st => f ∈ st.ledger)
      (fun st n h => processWalkNode_ledger_mono filterf oracle r st n h)
      WalkNode.rootNode (fun st => ?_) _ (List.mem_cons_self _ _) _
    unfold processWalkNode
    have hne : ¬ (dirnamesOf r WalkNode.rootNode).isEmpty = true := by
      simp only [dirnamesOf, List.isEmpty_eq_true, List.map_eq_nil_iff]
      intro he
      rw [he] at hd
      cases hd
    rw [if_neg hne]
    refine foldl_covers _ (fun st => f ∈ st.ledger)
      (fun st nm h => ?_) d.name (fun st => ?_) _ ?_ st
    · cases hfind : r.subdirs.find? (fun x => x.name == nm) with
      | some d2 =>
          simp only [hfind]
          exact ledger_mono_of_runs
            (runs_sendFiltered (fun _ => True) filterf oracle _ _ (fun _ _ _ _ => trivial) st) h
      | none => simpa [hfind] using h
    · rw [find?_name_eq r.subdirs d hnd hd]
      exact sendFiltered_covers filterf oracle _ _ f st ho hmem h1 hreg
    · exact mem_sortedStrings.mpr (by simpa [dirnamesOf] using List.mem_map_of_mem SubDir.name hd)

/-! A run over a store that already covers every accepted file does
nothing but print skip messages. -/

theorem processItem_noop (filterf : String → Bool) (oracle : Oracle)
    (isfile : String → Bool) (f : String) (st : St)
    (h : filterf f = true → isfile f = true → f ∈ st.ledger) :
    (processItem filterf oracle isfile f st).store = st.store ∧
      (processItem filterf oracle isfile f st).ledger = st.ledger ∧
      (processItem filterf oracle isfile f st).calls = st.calls ∧
      subsOf (processItem filterf oracle isfile f st).events = subsOf st.events := by
  unfold processItem
  by_cases h1 : filterf f = true
  · rw [if_pos h1]
    by_cases hmem : f ∈ st.ledger
    · rw [if_pos hmem]
      simp [subsOf_append, subsOf]
    · have h2 : ¬ isfile f = true := fun h2 => hmem (h h1 h2)
      rw [if_neg hmem, if_neg h2]
      simp
  · rw [if_neg h1]
    simp

theorem processDir_noop (filterf : String → Bool) (oracle : Oracle)
    (isfile : String → Bool) :
    ∀ (names : List String) (st : St),
      (∀ f ∈ names, filterf f = true → isfile f = true → f ∈ st.ledger) →
      (processDir filterf oracle isfile names st).store = st.store ∧
        (processDir filterf oracle isfile names st).ledger = st.ledger ∧
        (processDir filterf oracle isfile names st).calls = st.calls ∧
        subsOf (processDir filterf oracle isfile names st).events = subsOf st.events := by
  intro names
  induction names with
  | nil => intro st _; exact ⟨rfl, rfl, rfl, rfl⟩
  | cons f rest ih =>
      intro st h
      have hi := processItem_noop filterf oracle isfile f st
        (h f (List.mem_cons_self f rest))
      have hrest := ih (processItem filterf oracle isfile f st)
        (fun g hg hfil hreg => by
          rw [hi.2.1]
          exact h g (List.mem_cons_of_mem f hg) hfil hreg)
      exact ⟨hrest.1.trans hi.1, hrest.2.1.trans hi.2.1,
        hrest.2.2.1.trans hi.2.2.1, hrest.2.2.2.trans hi.2.2.2⟩

theorem sendFiltered_noop (filterf : String → Bool) (oracle : Oracle)
    (listing : List String) (isfile : String → Bool) (st : St)
    (h : ∀ f ∈ listing, filterf f = true → isfile f = true → f ∈ st.ledger) :
    (sendFilteredPromptsForDir filterf oracle listing isfile st).store = st.store ∧
      (sendFilteredPromptsForDir filterf oracle listing isfile st).ledger = st.ledger ∧
      (sendFilteredPromptsForDir filterf oracle listing isfile st).calls = st.calls ∧
      subsOf (sendFilteredPromptsForDir filterf oracle listing isfile st).events =
        subsOf st.events :=
  processDir_noop filterf oracle isfile (sortedStrings listing) st
    (fun f hf => h f (mem_sortedStrings.mp hf))

theorem runMain_no_new (filterf : String → Bool) (oracle : Oracle) (r : RootDir)
    (s : List Char) (hcov : coveredBy filterf r (loadLedger s)) :
    (runMain filterf oracle r s).store = s ∧
      (runMain filterf oracle r s).ledger = loadLedger s ∧
      (runMain filterf oracle r s).calls = 0 ∧
      subsOf (runMain filterf oracle r s).events = [] := by
  unfold runMain
  refine foldl_pres _
    (fun st => st.store = s ∧ st.ledger = loadLedger s ∧ st.calls = 0 ∧
      subsOf st.events = []) ?_ (osWalk r) _ ⟨rfl, rfl, rfl, rfl⟩
  intro st n hP
  unfold processWalkNode
  split
  · have hno := sendFiltered_noop filterf oracle (listdirRoot r) _ st
      (fun f hf hfil hreg => by
        rw [hP.2.1]
        exact hcov f ⟨hfil, Or.inl ⟨hf, hreg⟩⟩)
    exact ⟨hno.1.trans hP.1, hno.2.1.trans hP.2.1, hno.2.2.1.trans hP.2.2.1,
      hno.2.2.2.trans hP.2.2.2⟩
  · refine foldl_pres _
      (fun st => st.store = s ∧ st.ledger = loadLedger s ∧ st.calls = 0 ∧
        subsOf st.events = []) ?_ _ st hP
    intro st2 nm hP2
    cases hfind : r.subdirs.find? (fun x => x.name == nm) with
    | some d =>
        simp only [hfind]
        have hd := List.mem_of_find?_eq_some hfind
        have hno := sendFiltered_noop filterf oracle (listdirSub d) _ st2
          (fun f hf hfil hreg => by
            rw [hP2.2.1]
            exact hcov f ⟨hfil, Or.inr ⟨d, hd, hf, hreg⟩⟩)
        exact ⟨hno.1.trans hP2.1, hno.2.1.trans hP2.2.1, hno.2.2.1.trans hP2.2.2.1,
          hno.2.2.2.trans hP2.2.2.2⟩
    | none => simpa [hfind] using hP2

/-! The ledger can only stay or gain exactly the processed filename. -/

theorem retryAux_ledger_cases (oracle : Oracle) (f : String) (delay mr : Nat) :
    ∀ fuel rc st, (retryAux oracle f delay mr fuel rc st).ledger = st.ledger ∨
      (retryAux oracle f delay mr fuel rc st).ledger = insert f st.ledger := by
  intro fuel
  induction fuel with
  | zero => intro rc st; left; rfl
  | succ fuel ih =>
      intro rc st
      simp only [retryAux]
      split
      · cases hor : oracle st.calls with
        | some t => simp [hor]
        | none =>
            simp only [hor]
            split
            · exact ih (rc + 1) _
            · left; rfl
      · left; rfl

theorem processItem_ledger_cases (filterf : String → Bool) (oracle : Oracle)
    (isfile : String → Bool) (f : String) (st : St) :
    (processItem filterf oracle isfile f st).ledger = st.ledger ∨
      (processItem filterf oracle isfile f st).ledger = insert f st.ledger := by
  unfold processItem
  by_cases h1 : filterf f = true
  · rw [if_pos h1]
    by_cases hmem : f ∈ st.ledger
    · rw [if_pos hmem]; left; rfl
    · rw [if_neg hmem]
      by_cases h2 : isfile f = true
      · rw [if_pos h2]
        exact retryAux_ledger_cases oracle f delaySeconds maxRetries maxRetries 0 st
      · rw [if_neg h2]; left; rfl
  · rw [if_neg h1]; left; rfl

/-! Under an always-successful client no filename is ever submitted twice. -/

theorem nodup_processItem (filterf : String → Bool) (oracle : Oracle)
    (isfile : String → Bool) (ho : ∀ i, (oracle i).isSome = true) :
    ∀ (st : St) (f : String),
      ((subsOf st.events).Nodup ∧ ∀ g ∈ subsOf st.events, g ∈ st.ledger) →
      ((subsOf (processItem filterf oracle isfile f st).events).Nodup ∧
        ∀ g ∈ subsOf (processItem filterf oracle isfile f st).events,
          g ∈ (processItem filterf oracle isfile f st).ledger) := by
  intro st f h
  unfold processItem
  by_cases h1 : filterf f = true
  · rw [if_pos h1]
    by_cases hmem : f ∈ st.ledger
    · rw [if_pos hmem]
      constructor
      · show (subsOf (st.events ++ [Ev.skip f])).Nodup
        simpa [subsOf_append, subsOf] using h.1
      · show ∀ g ∈ subsOf (st.events ++ [Ev.skip f]), g ∈ st.ledger
        intro g hg
        exact h.2 g (by simpa [subsOf_append, subsOf] using hg)
    · rw [if_neg hmem]
      by_cases h2 : isfile f = true
      · rw [if_pos h2]
        obtain ⟨t, ht⟩ := Option.isSome_iff_exists.mp (ho st.calls)
        rw [retryLoop_success_eq oracle f st t ht]
        have hsub : subsOf (st.events ++ [Ev.submit f, Ev.write f t, Ev.mark f]) =
            subsOf st.events ++ [f] := by
          simp [subsOf_append, subsOf]
        constructor
        · show (subsOf (st.events ++ [Ev.submit f, Ev.write f t, Ev.mark f])).Nodup
          rw [hsub, List.nodup_append]
          exact ⟨h.1, List.nodup_singleton f,
            fun g hg hgf => hmem ((List.mem_singleton.mp hgf) ▸ h.2 g hg)⟩
        · show ∀ g ∈ subsOf (st.events ++ [Ev.submit f, Ev.write f t, Ev.mark f]),
            g ∈ insert f st.ledger
          intro g hg
          rw [hsub] at hg
          rcases List.mem_append.mp hg with hg | hg
          · exact Finset.mem_insert_of_mem (h.2 g hg)
          · rw [List.mem_singleton.mp hg]
            exact Finset.mem_insert_self f st.ledger
      · rw [if_neg h2]; exact h
  · rw [if_neg h1]; exact h

theorem nodup_runMain (filterf : String → Bool) (oracle : Oracle) (r : RootDir)
    (s : List Char) (ho : ∀ i, (oracle i).isSome = true) :
    (subsOf (runMain filterf oracle r s).events).Nodup ∧
      ∀ g ∈ subsOf (runMain filterf oracle r s).events,
        g ∈ (runMain filterf oracle r s).ledger := by
  unfold runMain
  refine foldl_pres _
    (fun st => (subsOf st.events).Nodup ∧ ∀ g ∈ subsOf st.events, g ∈ st.ledger)
    ?_ (osWalk r) _ ⟨by simp [subsOf], by simp [subsOf]⟩
  intro st n hP
  unfold processWalkNode
  split
  · exact foldl_pres _
      (fun st => (subsOf st.events).Nodup ∧ ∀ g ∈ subsOf st.events, g ∈ st.ledger)
      (fun st2 f h => nodup_processItem filterf oracle _ ho st2 f h)
      (sortedStrings (listdirRoot r)) st hP
  · refine foldl_pres _
      (fun st => (subsOf st.events).Nodup ∧ ∀ g ∈ subsOf st.events, g ∈ st.ledger)
      ?_ _ st hP
    intro st2 nm hP2
    cases hfind : r.subdirs.find? (fun x => x.name == nm) with
    | some d =>
        simp only [hfind]
        exact foldl_pres _
          (fun st => (subsOf st.events).Nodup ∧ ∀ g ∈ subsOf st.events, g ∈ st.ledger)
          (fun st3 f h => nodup_processItem filterf oracle _ ho st3 f h)
          (sortedStrings (listdirSub d)) st2 hP2
    | none => simpa [hfind] using hP2

/-! Last helpers for the claim theorems. -/

theorem accepted_clean {filterf : String → Bool} {r : RootDir} (hct : cleanTree filterf r) :
    ∀ f, acceptedName filterf r f → cleanName f = true := by
  intro f hf
  obtain ⟨h1, hloc⟩ := hf
  rcases hloc with ⟨hm, _⟩ | ⟨d, hd, hm, _⟩
  · exact hct.1 f hm h1
  · exact hct.2 d hd f hm h1

theorem processItem_fail_noop (filterf : String → Bool) (oracle : Oracle)
    (isfile : String → Bool) (hfail : ∀ i, oracle i = none) (g : String) (st : St) :
    (processItem filterf oracle isfile g st).store = st.store ∧
      (processItem filterf oracle isfile g st).ledger = st.ledger := by
  unfold processItem
  by_cases h1 : filterf g = true
  · rw [if_pos h1]
    by_cases hmem : g ∈ st.ledger
    · rw [if_pos hmem]; exact ⟨rfl, rfl⟩
    · rw [if_neg hmem]
      by_cases h2 : isfile g = true
      · rw [if_pos h2, retryLoop_fail_eq oracle g st hfail]
        exact ⟨rfl, rfl⟩
      · rw [if_neg h2]; exact ⟨rfl, rfl⟩
  · rw [if_neg h1]; exact ⟨rfl, rfl⟩

/-! Claim theorems. -/

/-- C2: in every execution of the batch driver, a filename is marked in
the in-memory completion ledger only after the corresponding result line
has been written and flushed to the Result Store: along the whole event
trace, every mark event is preceded by a write event of the same
filename. -/
theorem C2_write_before_mark (filterf : String → Bool) (oracle : Oracle)
    (r : RootDir) (s : List Char) :
    okAfter [] (runMain filterf oracle r s).events = true := by
  obtain ⟨d, he, _, _, _, _, _, ho⟩ := runs_runMain filterf oracle r s
  rw [he]
  simpa using ho []

/-- C4: when the submit function always fails, the retry loop calls it
exactly max_retries = 4 times, writes nothing to the Result Store, and
does not add the filename to the completion ledger. -/
theorem C4_retry_exhaustion (oracle : Oracle) (fname : String) (st : St)
    (hfail : ∀ i, oracle i = none) :
    (retryLoop oracle fname delaySeconds maxRetries st).calls = st.calls + maxRetries ∧
      subsOf (retryLoop oracle fname delaySeconds maxRetries st).events =
        subsOf st.events ++ List.replicate maxRetries fname ∧
      (retryLoop oracle fname delaySeconds maxRetries st).store = st.store ∧
      (retryLoop oracle fname delaySeconds maxRetries st).ledger = st.ledger ∧
      wfilesOf (retryLoop oracle fname delaySeconds maxRetries st).events =
        wfilesOf st.events := by
  rw [retryLoop_fail_eq oracle fname st hfail]
  refine ⟨by simp [maxRetries], ?_, rfl, rfl, ?_⟩
  · show subsOf (st.events ++ _) = _
    simp [subsOf_append, subsOf, maxRetries, List.replicate]
  · show wfilesOf (st.events ++ _) = _
    simp [wfilesOf_append, wfilesOf]

/-- C4 witness: a concrete always-failing client on one item makes four
calls and leaves store and ledger untouched. -/
theorem C4_retry_exhaustion_witness :
    (∀ i, (fun _ => none : Oracle) i = none) ∧
      ((retryLoop (fun _ => none) "001.jpg" delaySeconds maxRetries
          { store := [], ledger := ∅, calls := 0, events := [] }).calls =
        ({ store := [], ledger := ∅, calls := 0, events := [] } : St).calls + maxRetries ∧
      subsOf (retryLoop (fun _ => none) "001.jpg" delaySeconds maxRetries
          { store := [], ledger := ∅, calls := 0, events := [] }).events =
        subsOf ({ store := [], ledger := ∅, calls := 0, events := [] } : St).events ++
          List.replicate maxRetries "001.jpg" ∧
      (retryLoop (fun _ => none) "001.jpg" delaySeconds maxRetries
          { store := [], ledger := ∅, calls := 0, events := [] }).store =
        ({ store := [], ledger := ∅, calls := 0, events := [] } : St).store ∧
      (retryLoop (fun _ => none) "001.jpg" delaySeconds maxRetries
          { store := [], ledger := ∅, calls := 0, events := [] }).ledger =
        ({ store := [], ledger := ∅, calls := 0, events := [] } : St).ledger ∧
      wfilesOf (retryLoop (fun _ => none) "001.jpg" delaySeconds maxRetries
          { store := [], ledger := ∅, calls := 0, events := [] }).events =
        wfilesOf ({ store := [], ledger := ∅, calls := 0, events := [] } : St).events) :=
  ⟨fun _ => rfl,
    C4_retry_exhaustion (fun _ => none) "001.jpg"
      { store := [], ledger := ∅, calls := 0, events := [] } (fun _ => rfl)⟩

/-- C5 evaluation at the failing input: with one matching file r1.jpg in
the root next to subdirectory A holding a1.jpg, the run submits the root
file r1.jpg even though the root contains a subdirectory, because the
os.walk iteration for the leaf subdirectory has empty dirnames and the
code then scans args.image_directory, the root. -/
theorem C5_root_file_submitted :
    subsOf (runMain dotFilter okOracle bugTree []).events = ["a1.jpg", "r1.jpg"] := by
  decide

/-- C1 counterexample: a directory holding the single matching file
named with a leading space, processed from an empty store by an
always-successful client, is resubmitted on the second run: the stored
line is stripped before the key is taken, so the recorded key differs
from the filename and the second run performs a remote submission. -/
theorem C1_counterexample :
    ¬ (runMain dotFilter okOracle { files := [" 1.jpg"], junk := [], subdirs := [] }
        (runMain dotFilter okOracle { files := [" 1.jpg"], junk := [], subdirs := [] }
          []).store).calls = 0 := by
  decide

/-- C7 counterexample: the filename with a leading space contains no
comma, and its written line read back does not yield it as a key, because
the loader strips the line before splitting. -/
theorem C7_counterexample :
    ¬ (" a" ∈ loadLedger (renderLine " a" "x")) := by
  decide

/-- C3: when the submit function fails exactly K times and then succeeds,
with K below max_retries = 4 and base delay delay_seconds = 1, the retry
loop returns after exactly K+1 calls, sleeps delay*1, ..., delay*K seconds
between consecutive attempts, appends the rendered line to the Result
Store and marks the filename in the ledger. -/
theorem C3_retry_success (oracle : Oracle) (K : Nat) (t fname : String) (st : St)
    (hK : K < maxRetries) (hfail : ∀ i, i < K → oracle i = none)
    (hsucc : oracle K = some t) (hc : st.calls = 0) :
    (retryLoop oracle fname delaySeconds maxRetries st).calls = K + 1 ∧
      subsOf (retryLoop oracle fname delaySeconds maxRetries st).events =
        subsOf st.events ++ List.replicate (K + 1) fname ∧
      sleepsOf (retryLoop oracle fname delaySeconds maxRetries st).events =
        sleepsOf st.events ++ (List.range K).map (fun i => delaySeconds * (i + 1)) ∧
      (retryLoop oracle fname delaySeconds maxRetries st).store =
        st.store ++ renderLine fname t ∧
      (retryLoop oracle fname delaySeconds maxRetries st).ledger =
        insert fname st.ledger := by
  have h4 : K < 4 := by simpa [maxRetries] using hK
  interval_cases K
  · simp [retryLoop, retryAux, maxRetries, delaySeconds, hc, hsucc,
      subsOf_append, subsOf, sleepsOf_append, sleepsOf, List.replicate]
  · have h0 := hfail 0 (by norm_num)
    simp [retryLoop, retryAux, maxRetries, delaySeconds, hc, hsucc, h0,
      subsOf_append, subsOf, sleepsOf_append, sleepsOf, List.replicate, List.range_succ]
  · have h0 := hfail 0 (by norm_num)
    have h1 := hfail 1 (by norm_num)
    simp [retryLoop, retryAux, maxRetries, delaySeconds, hc, hsucc, h0, h1,
      subsOf_append, subsOf, sleepsOf_append, sleepsOf, List.replicate, List.range_succ]
  · have h0 := hfail 0 (by norm_num)
    have h1 := hfail 1 (by norm_num)
    have h2 := hfail 2 (by norm_num)
    simp [retryLoop, retryAux, maxRetries, delaySeconds, hc, hsucc, h0, h1, h2,
      subsOf_append, subsOf, sleepsOf_append, sleepsOf, List.replicate, List.range_succ]

/-- C3 witness: a client failing twice then answering ok is called three
times with sleeps of 1 and 2 seconds, and the line is written. -/
theorem C3_retry_success_witness :
    (2 < maxRetries) ∧ (∀ i, i < 2 → (fun n => if n < 2 then none else some "ok" : Oracle) i = none) ∧
      ((fun n => if n < 2 then none else some "ok" : Oracle) 2 = some "ok") ∧
      (({ store := [], ledger := ∅, calls := 0, events := [] } : St).calls = 0) ∧
      ((retryLoop (fun n => if n < 2 then none else some "ok") "001.jpg" delaySeconds maxRetries
          { store := [], ledger := ∅, calls := 0, events := [] }).calls = 2 + 1 ∧
        subsOf (retryLoop (fun n => if n < 2 then none else some "ok") "001.jpg" delaySeconds
            maxRetries { store := [], ledger := ∅, calls := 0, events := [] }).events =
          subsOf ({ store := [], ledger := ∅, calls := 0, events := [] } : St).events ++
            List.replicate (2 + 1) "001.jpg" ∧
        sleepsOf (retryLoop (fun n => if n < 2 then none else some "ok") "001.jpg" delaySeconds
            maxRetries { store := [], ledger := ∅, calls := 0, events := [] }).events =
          sleepsOf ({ store := [], ledger := ∅, calls := 0, events := [] } : St).events ++
            (List.range 2).map (fun i => delaySeconds * (i + 1)) ∧
        (retryLoop (fun n => if n < 2 then none else some "ok") "001.jpg" delaySeconds maxRetries
            { store := [], ledger := ∅, calls := 0, events := [] }).store =
          ({ store := [], ledger := ∅, calls := 0, events := [] } : St).store ++
            renderLine "001.jpg" "ok" ∧
        (retryLoop (fun n => if n < 2 then none else some "ok") "001.jpg" delaySeconds maxRetries
            { store := [], ledger := ∅, calls := 0, events := [] }).ledger =
          insert "001.jpg" ({ store := [], ledger := ∅, calls := 0, events := [] } : St).ledger) :=
  ⟨by decide, by decide, rfl, rfl,
    C3_retry_success (fun n => if n < 2 then none else some "ok") 2 "ok" "001.jpg"
      { store := [], ledger := ∅, calls := 0, events := [] }
      (by decide) (by decide) rfl rfl⟩

/-- C6: a per-item failure, up to retry exhaustion, never stops the batch:
the directory loop is the sequential composition of the items, the
exhausted item changes neither store nor ledger, and only the two
configuration failures, an unreadable prompt file or an unopenable Result
Store, abort the run before any processing. -/
theorem C6_error_containment (filterf : String → Bool) (oracle : Oracle)
    (isfile : String → Bool) (xs ys : List String) (f : String) (st : St)
    (hfail : ∀ i, oracle i = none) :
    processDir filterf oracle isfile (xs ++ f :: ys) st =
      processDir filterf oracle isfile ys
        (processItem filterf oracle isfile f (processDir filterf oracle isfile xs st)) ∧
      ((processItem filterf oracle isfile f (processDir filterf oracle isfile xs st)).store =
        (processDir filterf oracle isfile xs st).store ∧
        (processItem filterf oracle isfile f (processDir filterf oracle isfile xs st)).ledger =
          (processDir filterf oracle isfile xs st).ledger) ∧
      (∀ (b : Bool) (filterf2 : String → Bool) (oracle2 : Oracle) (r : RootDir) (s : List Char),
        runProgram false b filterf2 oracle2 r s = Except.error ()) ∧
      (∀ (filterf2 : String → Bool) (oracle2 : Oracle) (r : RootDir) (s : List Char),
        runProgram true false filterf2 oracle2 r s = Except.error ()) := by
  refine ⟨?_, processItem_fail_noop filterf oracle isfile hfail f _, ?_, ?_⟩
  · simp [processDir, List.foldl_append]
  · intro b filterf2 oracle2 r s; rfl
  · intro filterf2 oracle2 r s; rfl

/-- C6 witness: with an always-failing client, processing a.jpg, then the
exhausted x.jpg, then b.jpg decomposes sequentially and leaves the store
and ledger unchanged by the failed item. -/
theorem C6_error_containment_witness :
    (∀ i, (fun _ => none : Oracle) i = none) ∧
      (processDir dotFilter (fun _ => none) (fun _ => true)
          (["a.jpg"] ++ "x.jpg" :: ["b.jpg"])
          { store := [], ledger := ∅, calls := 0, events := [] } =
        processDir dotFilter (fun _ => none) (fun _ => true) ["b.jpg"]
          (processItem dotFilter (fun _ => none) (fun _ => true) "x.jpg"
            (processDir dotFilter (fun _ => none) (fun _ => true) ["a.jpg"]
              { store := [], ledger := ∅, calls := 0, events := [] })) ∧
        ((processItem dotFilter (fun _ => none) (fun _ => true) "x.jpg"
            (processDir dotFilter (fun _ => none) (fun _ => true) ["a.jpg"]
              { store := [], ledger := ∅, calls := 0, events := [] })).store =
          (processDir dotFilter (fun _ => none) (fun _ => true) ["a.jpg"]
            { store := [], ledger := ∅, calls := 0, events := [] }).store ∧
          (processItem dotFilter (fun _ => none) (fun _ => true) "x.jpg"
            (processDir dotFilter (fun _ => none) (fun _ => true) ["a.jpg"]
              { store := [], ledger := ∅, calls := 0, events := [] })).ledger =
            (processDir dotFilter (fun _ => none) (fun _ => true) ["a.jpg"]
              { store := [], ledger := ∅, calls := 0, events := [] }).ledger) ∧
        (∀ (b : Bool) (filterf2 : String → Bool) (oracle2 : Oracle) (r : RootDir) (s : List Char),
          runProgram false b filterf2 oracle2 r s = Except.error ()) ∧
        (∀ (filterf2 : String → Bool) (oracle2 : Oracle) (r : RootDir) (s : List Char),
          runProgram true false filterf2 oracle2 r s = Except.error ())) :=
  ⟨fun _ => rfl,
    C6_error_containment dotFilter (fun _ => none) (fun _ => true) ["a.jpg"] ["b.jpg"] "x.jpg"
      { store := [], ledger := ∅, calls := 0, events := [] } (fun _ => rfl)⟩

/-- C7 amended: every successful item is persisted as the line
filename, text newline, and for every filename without comma, newline or
leading whitespace and every newline-free response text, writing the line
onto a newline-terminated store and loading the ledger back yields exactly
the old keys plus that filename. -/
theorem C7_writer_loader_roundtrip (s : List Char) (f t : String) (oracle : Oracle) (st : St)
    (hf : cleanName f = true) (ht : ∀ c ∈ t.data, ¬ c = '\n') (hs : nlTerminated s) :
    (oracle st.calls = some t →
      (retryLoop oracle f delaySeconds maxRetries st).store = st.store ++ renderLine f t) ∧
      loadLedger (s ++ renderLine f t) = insert f (loadLedger s) := by
  refine ⟨fun h => ?_, loadLedger_append_eq s f t hf ht hs⟩
  rw [retryLoop_success_eq oracle f st t h]

/-- C7 witness: the clean filename 001.jpg with response ok written to an
empty store loads back as exactly the key 001.jpg. -/
theorem C7_writer_loader_roundtrip_witness :
    (cleanName "001.jpg" = true) ∧ (∀ c ∈ ("ok" : String).data, ¬ c = '\n') ∧
      nlTerminated [] ∧
      ((okOracle ({ store := [], ledger := ∅, calls := 0, events := [] } : St).calls = some "ok" →
        (retryLoop okOracle "001.jpg" delaySeconds maxRetries
            { store := [], ledger := ∅, calls := 0, events := [] }).store =
          ({ store := [], ledger := ∅, calls := 0, events := [] } : St).store ++
            renderLine "001.jpg" "ok") ∧
        loadLedger ([] ++ renderLine "001.jpg" "ok") = insert "001.jpg" (loadLedger [])) :=
  ⟨by decide, by decide, Or.inl rfl,
    C7_writer_loader_roundtrip [] "001.jpg" "ok" okOracle
      { store := [], ledger := ∅, calls := 0, events := [] }
      (by decide) (by decide) (Or.inl rfl)⟩

/-- C8: an entry failing the filename filter or the regular-file test is
never submitted: calls, store, ledger and the submit trace are unchanged;
an entry failing the filter is skipped with no effect at all; and the
directory loop continues with the remaining entries either way. -/
theorem C8_acceptance (filterf : String → Bool) (oracle : Oracle) (isfile : String → Bool)
    (f : String) (st : St) (names : List String)
    (h : filterf f = false ∨ isfile f = false) :
    (processItem filterf oracle isfile f st).calls = st.calls ∧
      (processItem filterf oracle isfile f st).store = st.store ∧
      (processItem filterf oracle isfile f st).ledger = st.ledger ∧
      subsOf (processItem filterf oracle isfile f st).events = subsOf st.events ∧
      (filterf f = false → processItem filterf oracle isfile f st = st) ∧
      processDir filterf oracle isfile (f :: names) st =
        processDir filterf oracle isfile names (processItem filterf oracle isfile f st) := by
  have hno := processItem_noop filterf oracle isfile f st (fun h1 h2 => by
    rcases h with hh | hh
    · rw [h1] at hh; cases hh
    · rw [h2] at hh; cases hh)
  refine ⟨hno.2.2.1, hno.1, hno.2.1, hno.2.2.2, ?_, rfl⟩
  intro hf
  unfold processItem
  rw [if_neg (by simp [hf])]

/-- C8 witness: the dotless name README fails the filter and is skipped
with no effect; the loop goes on to the remaining names. -/
theorem C8_acceptance_witness :
    (dotFilter "README" = false ∨ (fun _ => true : String → Bool) "README" = false) ∧
      ((processItem dotFilter okOracle (fun _ => true) "README"
          { store := [], ledger := ∅, calls := 0, events := [] }).calls =
        ({ store := [], ledger := ∅, calls := 0, events := [] } : St).calls ∧
        (processItem dotFilter okOracle (fun _ => true) "README"
          { store := [], ledger := ∅, calls := 0, events := [] }).store =
          ({ store := [], ledger := ∅, calls := 0, events := [] } : St).store ∧
        (processItem dotFilter okOracle (fun _ => true) "README"
          { store := [], ledger := ∅, calls := 0, events := [] }).ledger =
          ({ store := [], ledger := ∅, calls := 0, events := [] } : St).ledger ∧
        subsOf (processItem dotFilter okOracle (fun _ => true) "README"
          { store := [], ledger := ∅, calls := 0, events := [] }).events =
          subsOf ({ store := [], ledger := ∅, calls := 0, events := [] } : St).events ∧
        (dotFilter "README" = false →
          processItem dotFilter okOracle (fun _ => true) "README"
            { store := [], ledger := ∅, calls := 0, events := [] } =
          { store := [], ledger := ∅, calls := 0, events := [] }) ∧
        processDir dotFilter okOracle (fun _ => true) ("README" :: ["001.jpg"])
          { store := [], ledger := ∅, calls := 0, events := [] } =
          processDir dotFilter okOracle (fun _ => true) ["001.jpg"]
            (processItem dotFilter okOracle (fun _ => true) "README"
              { store := [], ledger := ∅, calls := 0, events := [] })) :=
  ⟨Or.inl (by decide),
    C8_acceptance dotFilter okOracle (fun _ => true) "README"
      { store := [], ledger := ∅, calls := 0, events := [] } ["001.jpg"]
      (Or.inl (by decide))⟩

/-- C9: the completion ledger starts as the keys loaded from the store,
only grows during the run, grows exactly by the filenames of the write
events, and each item operation leaves it unchanged or adds that one
filename; it is never persisted separately from the store. -/
theorem C9_ledger_monotone (filterf : String → Bool) (oracle : Oracle) (r : RootDir)
    (s : List Char) (isfile : String → Bool) (f : String) (st : St) :
    loadLedger s ⊆ (runMain filterf oracle r s).ledger ∧
      (runMain filterf oracle r s).ledger =
        loadLedger s ∪ (wfilesOf (runMain filterf oracle r s).events).toFinset ∧
      ((processItem filterf oracle isfile f st).ledger = st.ledger ∨
        (processItem filterf oracle isfile f st).ledger = insert f st.ledger) ∧
      st.ledger ⊆ (processItem filterf oracle isfile f st).ledger := by
  obtain ⟨d, he, _, hld, _⟩ := runs_runMain filterf oracle r s
  have hev : (runMain filterf oracle r s).events = d := by simpa using he
  refine ⟨?_, ?_, processItem_ledger_cases filterf oracle isfile f st,
    processItem_ledger_mono filterf oracle isfile f st⟩
  · rw [hld]
    exact Finset.subset_union_left
  · rw [hld, hev]
  -- the initial ledger of runMain is loadLedger s by definition, so hld
  -- is exactly the second conjunct once the trace is identified.

/-- C10: under an always-successful client, no filename is ever submitted
twice in a run, every submitted filename is marked, and a filename that is
already a key of the resumed store is never submitted at all, so of
same-named files in different subdirectories only the first enumerated one
is submitted, within a run and across runs. -/
theorem C10_filename_keyed (filterf : String → Bool) (oracle : Oracle) (r : RootDir)
    (s : List Char) (ho : ∀ i, (oracle i).isSome = true) :
    (subsOf (runMain filterf oracle r s).events).Nodup ∧
      (∀ g ∈ subsOf (runMain filterf oracle r s).events, g ∈ (runMain filterf oracle r s).ledger) ∧
      (∀ F ∈ loadLedger s, F ∉ subsOf (runMain filterf oracle r s).events) := by
  have hN := nodup_runMain filterf oracle r s ho
  refine ⟨hN.1, hN.2, ?_⟩
  intro F hF hmem
  obtain ⟨d, he, _, _, _, hq, _, _⟩ := runs_runMain filterf oracle r s
  rw [he] at hmem
  exact (hq F (by simpa using hmem)).2 hF

/-- C10 witness: subdirectories A and B both hold x.jpg; only the first
occurrence is submitted, the later one produces the already-written skip
message. -/
theorem C10_filename_keyed_witness :
    (∀ i, (okOracle i).isSome = true) ∧
      ((subsOf (runMain dotFilter okOracle
          { files := [], junk := [],
            subdirs := [{ name := "A", files := ["x.jpg"], junk := [] },
                        { name := "B", files := ["x.jpg"], junk := [] }] } []).events).Nodup ∧
        (∀ g ∈ subsOf (runMain dotFilter okOracle
            { files := [], junk := [],
              subdirs := [{ name := "A", files := ["x.jpg"], junk := [] },
                          { name := "B", files := ["x.jpg"], junk := [] }] } []).events,
          g ∈ (runMain dotFilter okOracle
            { files := [], junk := [],
              subdirs := [{ name := "A", files := ["x.jpg"], junk := [] },
                          { name := "B", files := ["x.jpg"], junk := [] }] } []).ledger) ∧
        (∀ F ∈ loadLedger [], F ∉ subsOf (runMain dotFilter okOracle
            { files := [], junk := [],
              subdirs := [{ name := "A", files := ["x.jpg"], junk := [] },
                          { name := "B", files := ["x.jpg"], junk := [] }] } []).events)) ∧
      subsOf (runMain dotFilter okOracle
          { files := [], junk := [],
            subdirs := [{ name := "A", files := ["x.jpg"], junk := [] },
                        { name := "B", files := ["x.jpg"], junk := [] }] } []).events =
        ["x.jpg"] ∧
      Ev.skip "x.jpg" ∈ (runMain dotFilter okOracle
          { files := [], junk := [],
            subdirs := [{ name := "A", files := ["x.jpg"], junk := [] },
                        { name := "B", files := ["x.jpg"], junk := [] }] } []).events :=
  ⟨fun _ => rfl,
    C10_filename_keyed dotFilter okOracle
      { files := [], junk := [],
        subdirs := [{ name := "A", files := ["x.jpg"], junk := [] },
                    { name := "B", files := ["x.jpg"], junk := [] }] } [] (fun _ => rfl),
    by decide, by decide⟩

/-- C1 amended: when every submission of the first run succeeds, every
filter-accepted name in the tree is free of commas, newlines and leading
whitespace, the initial store is empty or newline-terminated, and
subdirectory names are distinct, a second run over the unchanged tree and
the store left by the first run performs zero remote submissions and
appends nothing; and in any run, a filename that is already a key of the
initial store is never submitted and never written again. -/
theorem C1_resumable_idempotence (filterf : String → Bool) (oracle1 : Oracle)
    (r : RootDir) (s : List Char)
    (hsucc : ∀ i, (oracle1 i).isSome = true) (hclean : cleanTree filterf r)
    (hnl : nlTerminated s) (hnd : (r.subdirs.map SubDir.name).Nodup) :
    (∀ oracle2 : Oracle,
      (runMain filterf oracle2 r (runMain filterf oracle1 r s).store).calls = 0 ∧
        subsOf (runMain filterf oracle2 r (runMain filterf oracle1 r s).store).events = [] ∧
        (runMain filterf oracle2 r (runMain filterf oracle1 r s).store).store =
          (runMain filterf oracle1 r s).store) ∧
      (∀ (oracle : Oracle) (F : String), F ∈ loadLedger s →
        F ∉ subsOf (runMain filterf oracle r s).events ∧
          F ∉ wfilesOf (runMain filterf oracle r s).events) := by
  constructor
  · intro oracle2
    have hruns := runs_runMain filterf oracle1 r s
    have hinv := inv_of_runs hruns (accepted_clean hclean) (Finset.Subset.refl _) hnl
    have hcov2 : coveredBy filterf r (loadLedger (runMain filterf oracle1 r s).store) :=
      fun f hf => hinv.1 (runMain_covers filterf oracle1 r s hsucc hnd f hf)
    have hno := runMain_no_new filterf oracle2 r (runMain filterf oracle1 r s).store hcov2
    exact ⟨hno.2.2.1, hno.2.2.2, hno.1⟩
  · intro oracle F hF
    obtain ⟨d, he, _, _, _, hq, hw, _⟩ := runs_runMain filterf oracle r s
    constructor
    · intro hmem
      rw [he] at hmem
      exact (hq F (by simpa using hmem)).2 hF
    · intro hmem
      rw [he] at hmem
      exact (hq F (hw F (by simpa using hmem))).2 hF

/-- C1 witness: the clean tree with root file r1.jpg and subdirectory A
run from the empty store by an always-successful client; the second run
makes zero calls and leaves the store as is. -/
theorem C1_resumable_idempotence_witness :
    (∀ i, (okOracle i).isSome = true) ∧ cleanTree dotFilter bugTree ∧ nlTerminated [] ∧
      (bugTree.subdirs.map SubDir.name).Nodup ∧
      ((∀ oracle2 : Oracle,
        (runMain dotFilter oracle2 bugTree (runMain dotFilter okOracle bugTree []).store).calls = 0 ∧
          subsOf (runMain dotFilter oracle2 bugTree
            (runMain dotFilter okOracle bugTree []).store).events = [] ∧
          (runMain dotFilter oracle2 bugTree
            (runMain dotFilter okOracle bugTree []).store).store =
            (runMain dotFilter okOracle bugTree []).store) ∧
        (∀ (oracle : Oracle) (F : String), F ∈ loadLedger [] →
          F ∉ subsOf (runMain dotFilter oracle bugTree []).events ∧
            F ∉ wfilesOf (runMain dotFilter oracle bugTree []).events)) :=
  ⟨fun _ => rfl, ⟨by decide, by decide⟩, Or.inl rfl, by decide,
    C1_resumable_idempotence dotFilter okOracle bugTree []
      (fun _ => rfl) ⟨by decide, by decide⟩ (Or.inl rfl) (by decide)⟩

end GeminiAnalysis
